import Mathlib

/-!
Verification of the integer-tensor operation contract (`IntTensorOps` in
`crates/burn-tensor/src/tensor/ops/int_tensor.rs`).

The contract is a Rust trait: backend-required primitive operations are
declared without bodies, and derived (default) operations are given bodies
composed from the primitives.  The shallow embedding below works over a
reference model of materialized integer tensors: a shape (list of
per-dimension extents) together with the row-major flat list of values.
Primitive operations carry a doc comment starting with `Modelled from the
spec:` and follow the natural-language contract of the specification, since
their implementations live in the backends, outside this file's source.
Default operations are translated directly from the trait's default bodies.
-/

namespace Burn

/-- Reference model of a materialized integer tensor: per-dimension extents
plus the row-major flat value list. -/
structure Tensor where
  shape : List Nat
  data : List Int
deriving DecidableEq, Repr

/-- Reference model of a boolean (mask) tensor. -/
structure BTensor where
  shape : List Nat
  data : List Bool
deriving DecidableEq, Repr

/-- Well-formedness of a materialized tensor: the flat data holds exactly one
value per position of the shape. -/
def Valid (t : Tensor) : Prop := t.data.length = t.shape.prod

/-- Row-major flat position of a multi-index under a shape. -/
def flatten : List Nat → List Nat → Nat
  | _ :: s, i :: ix => i * s.prod + flatten s ix
  | _, _ => 0

/-- Multi-index of a row-major flat position under a shape. -/
def unflatten : List Nat → Nat → List Nat
  | [], _ => []
  | _ :: s, k => (k / s.prod) :: unflatten s (k % s.prod)

/-- The multi-index is in bounds for the shape (same rank, each coordinate
below the corresponding extent). -/
def validIx : List Nat → List Nat → Bool
  | [], [] => true
  | d :: s, i :: ix => decide (i < d) && validIx s ix
  | _, _ => false

/-- The multi-index lies inside a list of half-open per-dimension ranges. -/
def insideRanges : List (Nat × Nat) → List Nat → Bool
  | [], [] => true
  | r :: rs, i :: ix => (decide (r.1 ≤ i) && decide (i < r.2)) && insideRanges rs ix
  | _, _ => false

/-- Value of a tensor at a multi-index (0 outside the stored data). -/
def Tensor.get (t : Tensor) (ix : List Nat) : Int :=
  t.data.getD (flatten t.shape ix) 0

/-- Tensor of a given shape whose value at each multi-index is given by a
function, materialized in row-major order. -/
def ofFn (s : List Nat) (f : List Nat → Int) : Tensor :=
  ⟨s, (List.range s.prod).map fun k => f (unflatten s k)⟩

/-- Modelled from the spec: `int_empty` — create a tensor of a shape (on a
device; the model is device-free).  The contract leaves the contents
unspecified; the model fills with zeros, and no theorem below depends on the
fill value. -/
def int_empty (s : List Nat) : Tensor :=
  ⟨s, List.replicate s.prod 0⟩

/-- Default `int_shape` view of the model: the per-dimension extents. -/
def int_shape (t : Tensor) : List Nat := t.shape

/-- Modelled from the spec: `int_slice` — extract the sub-tensor given one
half-open index range per dimension. -/
def int_slice (t : Tensor) (rs : List (Nat × Nat)) : Tensor :=
  ofFn (rs.map fun r => r.2 - r.1) fun ix =>
    t.get (List.zipWith (fun i r => i + r.1) ix rs)

/-- Modelled from the spec: `int_slice_assign` — write a value tensor into a
sliced region of a target tensor, returning a new tensor reflecting the
write; positions outside the region keep the target's values. -/
def int_slice_assign (t : Tensor) (rs : List (Nat × Nat)) (v : Tensor) : Tensor :=
  ofFn t.shape fun ix =>
    if insideRanges rs ix then v.get (List.zipWith (fun i r => i - r.1) ix rs)
    else t.get ix

/-- Modelled from the spec: `int_gather` — for each position, read the value
of the source at the multi-index whose coordinate along `dim` is replaced by
the value of the index tensor at that position. -/
def int_gather (dim : Nat) (t idx : Tensor) : Tensor :=
  ofFn idx.shape fun ix => t.get (ix.set dim (idx.get ix).toNat)

/-- Index (below `n`) at which `f` attains its maximum over `0..n`, keeping
the earliest maximum; 0 when `n = 0`. -/
def bestIdx (f : Nat → Int) (n : Nat) : Nat :=
  (List.range n).foldl (fun b j => if f b < f j then j else b) 0

/-- Index (below `n`) at which `f` attains its minimum over `0..n`, keeping
the earliest minimum; 0 when `n = 0`. -/
def bestIdxMin (f : Nat → Int) (n : Nat) : Nat :=
  (List.range n).foldl (fun b j => if f j < f b then j else b) 0

/-- Modelled from the spec: `int_argmax` — indices of the maximum elements
along a dimension, as an integer tensor of the same shape with the reduced
dimension collapsed to extent 1. -/
def int_argmax (t : Tensor) (dim : Nat) : Tensor :=
  ofFn (t.shape.set dim 1) fun ix =>
    Int.ofNat (bestIdx (fun j => t.get (ix.set dim j)) (t.shape.getD dim 0))

/-- Modelled from the spec: `int_argmin` — indices of the minimum elements
along a dimension, as an integer tensor of the same shape with the reduced
dimension collapsed to extent 1. -/
def int_argmin (t : Tensor) (dim : Nat) : Tensor :=
  ofFn (t.shape.set dim 1) fun ix =>
    Int.ofNat (bestIdxMin (fun j => t.get (ix.set dim j)) (t.shape.getD dim 0))

/-- Modelled from the spec: `int_sum_dim` — sum along one dimension; that
dimension collapses to extent 1, the others are unchanged. -/
def int_sum_dim (t : Tensor) (dim : Nat) : Tensor :=
  ofFn (t.shape.set dim 1) fun ix =>
    ((List.range (t.shape.getD dim 0)).map fun j => t.get (ix.set dim j)).sum

/-- Modelled from the spec: along-dimension arithmetic mean — the
dimension-local sum divided by that dimension's pre-reduction extent
(integer division, matching the element type).  In the source,
`int_mean_dim` itself is a backend-required primitive with no default body;
this definition is the spec's (§4.2) description of mean semantics, used to
compare a conforming backend against `int_sum_dim`. -/
def int_mean_dim_spec (t : Tensor) (dim : Nat) : Tensor :=
  ofFn (t.shape.set dim 1) fun ix =>
    (((List.range (t.shape.getD dim 0)).map fun j => t.get (ix.set dim j)).sum) /
      (t.shape.getD dim 0 : Int)

/-- Modelled from the spec: `int_reshape` — reinterpret the data under a new
shape; the contract requires the total element counts to match (checked by
backends), and the flat data is preserved. -/
def int_reshape (t : Tensor) (s : List Nat) : Tensor := ⟨s, t.data⟩

/-- Modelled from the spec: `int_mul_scalar` — elementwise multiplication by
a scalar. -/
def int_mul_scalar (t : Tensor) (c : Int) : Tensor :=
  ⟨t.shape, t.data.map fun x => x * c⟩

/-- Modelled from the spec: `int_lower_elem` — elementwise less-than
comparison with a scalar, producing a boolean tensor of the same shape. -/
def int_lower_elem (t : Tensor) (c : Int) : BTensor :=
  ⟨t.shape, t.data.map fun x => decide (x < c)⟩

/-- Modelled from the spec: `int_greater_elem` — elementwise greater-than
comparison with a scalar, producing a boolean tensor of the same shape. -/
def int_greater_elem (t : Tensor) (c : Int) : BTensor :=
  ⟨t.shape, t.data.map fun x => decide (c < x)⟩

/-- Modelled from the spec: `int_mask_fill` — fill the scalar at positions
where the mask is true, keeping the tensor's value elsewhere. -/
def int_mask_fill (t : Tensor) (mask : BTensor) (v : Int) : Tensor :=
  ⟨t.shape, List.zipWith (fun x b => if b then v else x) t.data mask.data⟩

/-- Clone of a tensor handle: a value-identical copy (`tensor.clone()`). -/
def Tensor.clone (t : Tensor) : Tensor := t

/-- Loop of the default `int_repeat` (see there), generalized to its first
`m` iterations for the sake of induction: starting from an empty output of
the expanded shape, slice-assign the source into the singleton slices
`0..1, 1..2, ..., m-1..m` along `dim`; the full loop is `m = times`. -/
def repeatFoldAux (tensor : Tensor) (dim times m : Nat) : Tensor :=
  let shape2 := (int_shape tensor).set dim times
  (List.range m).foldl
    (fun out i =>
      int_slice_assign out ((shape2.map fun d => (0, d)).set dim (i, i + 1)) tensor)
    (int_empty shape2)

/-- Default `int_repeat`, translated from the source: check the repeated
dimension is a singleton (the Rust body panics with "Can only repeat
dimension with dim=1", modelled as `Except.error`; an out-of-range `dim`
also aborts in Rust, via an index panic), expand the shape at `dim` to
`times`, allocate an empty output, and slice-assign the source into each of
the `times` consecutive singleton slices along `dim` (`repeatFoldAux` with
`m = times`). -/
def int_repeat (tensor : Tensor) (dim times : Nat) : Except String Tensor :=
  if (int_shape tensor).getD dim 0 ≠ 1 then
    Except.error "Can only repeat dimension with dim=1"
  else
    Except.ok (repeatFoldAux tensor dim times times)

/-- Default `int_clamp_min`, translated from the source: mask of positions
below the minimum, then masked fill with the minimum. -/
def int_clamp_min (tensor : Tensor) (min : Int) : Tensor :=
  let mask := int_lower_elem tensor min
  int_mask_fill tensor mask min

/-- Default `int_clamp_max`, translated from the source: mask of positions
above the maximum, then masked fill with the maximum. -/
def int_clamp_max (tensor : Tensor) (max : Int) : Tensor :=
  let mask := int_greater_elem tensor max
  int_mask_fill tensor mask max

/-- Default `int_clamp`, translated from the source: max-clamp first, then
min-clamp on the result. -/
def int_clamp (tensor : Tensor) (min max : Int) : Tensor :=
  int_clamp_min (int_clamp_max tensor max) min

/-- Default `int_neg`, translated from the source: multiply elementwise by
the scalar −1 (the float literal `-1.0` converted into the integer element
type). -/
def int_neg (tensor : Tensor) : Tensor :=
  int_mul_scalar tensor (-1)

/-- Default `int_max_dim`, translated from the source: argmax along the
requested dimension, then gather along the LAST dimension `D - 1`. -/
def int_max_dim (tensor : Tensor) (dim : Nat) : Tensor :=
  let index := int_argmax tensor dim
  int_gather (tensor.shape.length - 1) tensor index

/-- Default `int_min_dim`, translated from the source: argmin along the
requested dimension, then gather along the LAST dimension `D - 1`. -/
def int_min_dim (tensor : Tensor) (dim : Nat) : Tensor :=
  let index := int_argmin tensor dim
  int_gather (tensor.shape.length - 1) tensor index

/-- Default `int_max`, translated from the source: reshape to rank 1 with
length the total element count, then delegate to `int_max_dim` on
dimension 0. -/
def int_max (tensor : Tensor) : Tensor :=
  let shape := int_shape tensor
  int_max_dim (int_reshape tensor [shape.prod]) 0

/-- Default `int_min`, translated from the source: reshape to rank 1 with
length the total element count, then delegate to `int_min_dim` on
dimension 0. -/
def int_min (tensor : Tensor) : Tensor :=
  let shape := int_shape tensor
  int_min_dim (int_reshape tensor [shape.prod]) 0

/-- Values visited by `(a..b).step_by(step)` in the source's
`int_arange_step`: the integers `a + k * step` for `k = 0, 1, ...` that lie
strictly below `b`.  The count is the ceiling of `(b - a) / step` (0 for an
empty range); the Rust iterator requires `step ≥ 1` (it panics on 0). -/
def rangeStepCount (a b : Int) (step : Nat) : Nat :=
  ((b - a).toNat + step - 1) / step

/-- Host-side materialization of the stepped range (see `rangeStepCount`). -/
def rangeStepList (a b : Int) (step : Nat) : List Int :=
  (List.range (rangeStepCount a b step)).map fun k : Nat => a + (k : Int) * (step : Int)

/-- Default `int_arange_step`, translated from the source: materialize the
stepped half-open range host-side, convert each value to the element type
(the identity for the model's `Int` elements), and load it as a rank-1
tensor via the from-data primitive (value-preserving in the model). -/
def int_arange_step (a b : Int) (step : Nat) : Tensor :=
  let value := rangeStepList a b step
  ⟨[value.length], value⟩

/-- Default `int_arange`, translated from the source: `int_arange_step` with
a step size of 1. -/
def int_arange (a b : Int) : Tensor :=
  int_arange_step a b 1

/-- Default `int_to_data`, translated from the source: delegate to the
backend's `int_into_data` materialization primitive applied to a clone of
the tensor (the primitive is abstracted as an arbitrary function into the
snapshot type). -/
def int_to_data {α : Type} (intoData : Tensor → α) (tensor : Tensor) : α :=
  intoData tensor.clone

theorem validIx_length : ∀ {s ix : List Nat}, validIx s ix = true → ix.length = s.length
  | [], [], _ => rfl
  | _ :: s, i :: ix, h => by
    rw [validIx, Bool.and_eq_true] at h
    simp [validIx_length h.2]

theorem flatten_lt : ∀ {s ix : List Nat}, validIx s ix = true → flatten s ix < s.prod
  | [], [], _ => by simp [flatten]
  | d :: s, i :: ix, h => by
    rw [validIx, Bool.and_eq_true, decide_eq_true_eq] at h
    have h2 := flatten_lt h.2
    calc i * s.prod + flatten s ix < i * s.prod + s.prod := by omega
    _ = (i + 1) * s.prod := by ring
    _ ≤ d * s.prod := Nat.mul_le_mul_right _ h.1
  | _ :: _, [], h => by simp [validIx] at h
  | [], _ :: _, h => by simp [validIx] at h

theorem unflatten_flatten : ∀ {s ix : List Nat}, validIx s ix = true →
    unflatten s (flatten s ix) = ix
  | [], [], _ => rfl
  | d :: s, i :: ix, h => by
    rw [validIx, Bool.and_eq_true, decide_eq_true_eq] at h
    have hr : flatten s ix < s.prod := flatten_lt h.2
    have hP : 0 < s.prod := Nat.pos_of_ne_zero fun h0 => by omega
    rw [flatten, unflatten]
    have hdiv : (i * s.prod + flatten s ix) / s.prod = i := by
      rw [Nat.add_comm, Nat.mul_comm, Nat.add_mul_div_left _ _ hP,
        Nat.div_eq_of_lt hr, Nat.zero_add]
    have hmod : (i * s.prod + flatten s ix) % s.prod = flatten s ix := by
      rw [Nat.add_comm, Nat.mul_comm, Nat.add_mul_mod_self_left,
        Nat.mod_eq_of_lt hr]
    rw [hdiv, hmod, unflatten_flatten h.2]
  | _ :: _, [], h => by simp [validIx] at h
  | [], _ :: _, h => by simp [validIx] at h

theorem flatten_unflatten : ∀ {s : List Nat} {k : Nat}, k < s.prod →
    flatten s (unflatten s k) = k
  | [], k, h => by
    simp only [List.prod_nil] at h
    simp [unflatten, flatten]
    omega
  | d :: s, k, h => by
    have hP : 0 < s.prod := by
      rcases Nat.eq_zero_or_pos s.prod with h0 | h0
      · rw [List.prod_cons, h0, Nat.mul_zero] at h; omega
      · exact h0
    rw [unflatten, flatten, flatten_unflatten (Nat.mod_lt _ hP)]
    rw [Nat.mul_comm]
    exact Nat.div_add_mod k s.prod

theorem validIx_unflatten : ∀ {s : List Nat} {k : Nat}, k < s.prod →
    validIx s (unflatten s k) = true
  | [], _, _ => rfl
  | d :: s, k, h => by
    have hP : 0 < s.prod := by
      rcases Nat.eq_zero_or_pos s.prod with h0 | h0
      · rw [List.prod_cons, h0, Nat.mul_zero] at h; omega
      · exact h0
    rw [unflatten, validIx, Bool.and_eq_true, decide_eq_true_eq]
    refine ⟨?_, validIx_unflatten (Nat.mod_lt _ hP)⟩
    rw [Nat.div_lt_iff_lt_mul hP]
    rw [List.prod_cons] at h
    exact h

theorem ofFn_shape (s : List Nat) (f : List Nat → Int) : (ofFn s f).shape = s := rfl

theorem ofFn_length (s : List Nat) (f : List Nat → Int) :
    (ofFn s f).data.length = s.prod := by
  simp [ofFn]

theorem ofFn_get {s : List Nat} (f : List Nat → Int) {ix : List Nat}
    (h : validIx s ix = true) : (ofFn s f).get ix = f ix := by
  have hlt : flatten s ix < s.prod := flatten_lt h
  rw [Tensor.get, ofFn]
  rw [List.getD_eq_getElem _ _ (by simpa using hlt)]
  rw [List.getElem_map]
  rw [List.getElem_range]
  rw [unflatten_flatten h]

theorem getD_set {α : Type} (l : List α) (n m : Nat) (a d : α) :
    (l.set n a).getD m d = if n = m ∧ n < l.length then a else l.getD m d := by
  rw [List.getD_eq_getElem?_getD, List.getElem?_set, List.getD_eq_getElem?_getD]
  by_cases h1 : n = m
  · subst h1
    by_cases h2 : n < l.length
    · simp [h2]
    · rw [if_pos rfl, if_neg h2, if_neg (fun hc => h2 hc.2),
        List.getElem?_eq_none (by omega)]
  · simp [h1]

theorem set_getD_eq_self {α : Type} (l : List α) (n : Nat) (d : α)
    (h : n < l.length) : l.set n (l.getD n d) = l := by
  apply List.ext_getElem (by simp)
  intro m h1 h2
  rw [List.getElem_set]
  split
  · next heq => subst heq; rw [List.getD_eq_getElem _ _ h]
  · rfl

theorem validIx_iff : ∀ (s ix : List Nat), validIx s ix = true ↔
    ix.length = s.length ∧ ∀ d, d < s.length → ix.getD d 0 < s.getD d 0
  | [], [] => by simp [validIx]
  | [], _ :: _ => by simp [validIx]
  | _ :: _, [] => by simp [validIx]
  | d :: s, i :: ix => by
    rw [validIx, Bool.and_eq_true, decide_eq_true_eq, validIx_iff s ix]
    constructor
    · rintro ⟨h1, h2, h3⟩
      refine ⟨by simp [h2], ?_⟩
      intro e he
      cases e with
      | zero => simpa using h1
      | succ e => simpa using h3 e (by simpa using he)
    · rintro ⟨h1, h2⟩
      refine ⟨by simpa using h2 0 (by simp), by simpa using h1, ?_⟩
      intro e he
      simpa using h2 (e + 1) (by simpa using he)

theorem insideRanges_iff : ∀ (rs : List (Nat × Nat)) (ix : List Nat),
    insideRanges rs ix = true ↔ ix.length = rs.length ∧
      ∀ d, d < rs.length →
        (rs.getD d (0, 0)).1 ≤ ix.getD d 0 ∧ ix.getD d 0 < (rs.getD d (0, 0)).2
  | [], [] => by simp [insideRanges]
  | [], _ :: _ => by simp [insideRanges]
  | _ :: _, [] => by simp [insideRanges]
  | r :: rs, i :: ix => by
    rw [insideRanges, Bool.and_eq_true, Bool.and_eq_true, decide_eq_true_eq,
      decide_eq_true_eq, insideRanges_iff rs ix]
    constructor
    · rintro ⟨⟨h1, h2⟩, h3, h4⟩
      refine ⟨by simp [h3], ?_⟩
      intro e he
      cases e with
      | zero => simpa using And.intro h1 h2
      | succ e => simpa using h4 e (by simpa using he)
    · rintro ⟨h1, h2⟩
      have h0 := h2 0 (by simp)
      refine ⟨⟨by simpa using h0.1, by simpa using h0.2⟩, by simpa using h1, ?_⟩
      intro e he
      simpa using h2 (e + 1) (by simpa using he)

theorem zipWith_map_same {α β γ : Type} (f : α → β → γ) (g : α → β) :
    ∀ (l : List α), List.zipWith f l (l.map g) = l.map fun x => f x (g x)
  | [] => rfl
  | x :: l => by simp [zipWith_map_same f g l]

theorem bestIdx_succ (f : Nat → Int) (n : Nat) :
    bestIdx f (n + 1) = if f (bestIdx f n) < f n then n else bestIdx f n := by
  unfold bestIdx
  rw [List.range_succ, List.foldl_append]
  rfl

theorem bestIdx_lt (f : Nat → Int) : ∀ n, 0 < n → bestIdx f n < n := by
  intro n
  induction n with
  | zero => omega
  | succ m ih =>
    intro _
    rw [bestIdx_succ]
    split
    · omega
    · cases Nat.eq_zero_or_pos m with
      | inl h0 => subst h0; simp [bestIdx]
      | inr h0 => exact Nat.lt_succ_of_lt (ih h0)

theorem bestIdx_le (f : Nat → Int) : ∀ n j, j < n → f j ≤ f (bestIdx f n) := by
  intro n
  induction n with
  | zero => omega
  | succ m ih =>
    intro j hj
    rw [bestIdx_succ]
    split
    · next h =>
      rcases Nat.lt_succ_iff_lt_or_eq.mp hj with hj2 | hj2
      · exact le_of_lt (lt_of_le_of_lt (ih j hj2) h)
      · subst hj2; exact le_refl _
    · next h =>
      rcases Nat.lt_succ_iff_lt_or_eq.mp hj with hj2 | hj2
      · exact ih j hj2
      · subst hj2; exact le_of_not_lt h

theorem repeatFoldAux_succ (t : Tensor) (dim times m : Nat) :
    repeatFoldAux t dim times (m + 1) =
      int_slice_assign (repeatFoldAux t dim times m)
        (((t.shape.set dim times).map fun d => (0, d)).set dim (m, m + 1)) t := by
  unfold repeatFoldAux
  rw [List.range_succ, List.foldl_append]
  rfl

theorem repeatFoldAux_shape (t : Tensor) (dim times : Nat) :
    ∀ m, (repeatFoldAux t dim times m).shape = t.shape.set dim times
  | 0 => rfl
  | m + 1 => by
    rw [repeatFoldAux_succ]
    exact repeatFoldAux_shape t dim times m

theorem validIx_set {s ix : List Nat} {dim i n : Nat}
    (hix : validIx s ix = true) (hdim : dim < s.length) (hi : i < n) :
    validIx (s.set dim n) (ix.set dim i) = true := by
  rw [validIx_iff] at hix ⊢
  obtain ⟨hl, hb⟩ := hix
  refine ⟨by simp [hl], ?_⟩
  intro d hd
  rw [List.length_set] at hd
  rw [getD_set, getD_set]
  by_cases hdd : dim = d
  · subst hdd
    rw [if_pos ⟨rfl, by omega⟩, if_pos ⟨rfl, hdim⟩]
    exact hi
  · rw [if_neg (fun hc => hdd hc.1), if_neg (fun hc => hdd hc.1)]
    exact hb d hd

theorem validIx_getD_singleton {s ix : List Nat} {dim : Nat}
    (hix : validIx s ix = true) (h1 : s.getD dim 0 = 1) : ix.getD dim 0 = 0 := by
  rw [validIx_iff] at hix
  obtain ⟨hl, hb⟩ := hix
  by_cases hdim : dim < s.length
  · have := hb dim hdim
    omega
  · exact List.getD_eq_default _ _ (by omega)

theorem insideRanges_axis {s ix : List Nat} {dim i j n : Nat}
    (hix : validIx s ix = true) (hdim : dim < s.length) :
    insideRanges (((s.set dim n).map fun d => (0, d)).set dim (j, j + 1))
        (ix.set dim i) = true ↔ i = j := by
  have hl : ix.length = s.length := validIx_length hix
  rw [insideRanges_iff]
  constructor
  · rintro ⟨-, hall⟩
    have hd := hall dim (by simp [hdim])
    rw [getD_set, getD_set,
      if_pos ⟨rfl, by simp [hdim]⟩, if_pos ⟨rfl, by omega⟩] at hd
    simp only at hd
    omega
  · rintro rfl
    refine ⟨by simp [hl], ?_⟩
    intro d hd
    rw [List.length_set, List.length_map, List.length_set] at hd
    rw [getD_set, getD_set]
    by_cases hdd : dim = d
    · subst hdd
      rw [if_pos ⟨rfl, by simp [hdim]⟩, if_pos ⟨rfl, by omega⟩]
      simp
    · rw [if_neg (fun hc => hdd hc.1), if_neg (fun hc => hdd hc.1)]
      rw [List.getD_eq_getElem _ _ (by simp [hd] : d < ((s.set dim n).map
        fun d => ((0 : Nat), d)).length), List.getElem_map, List.getElem_set, if_neg hdd]
      have hb := ((validIx_iff s ix).mp hix).2 d hd
      rw [List.getD_eq_getElem s 0 hd] at hb
      refine ⟨by omega, ?_⟩
      by_cases hdl : d < ix.length
      · rw [List.getD_eq_getElem ix 0 hdl] at hb ⊢
        exact hb
      · omega

theorem zip_sub_axis {s ix : List Nat} {dim m n : Nat}
    (hix : validIx s ix = true) (hdim : dim < s.length) (h1 : s.getD dim 0 = 1) :
    List.zipWith (fun i r => i - r.1) (ix.set dim m)
      (((s.set dim n).map fun d => (0, d)).set dim (m, m + 1)) = ix := by
  have hl : ix.length = s.length := validIx_length hix
  have hix0 : ix.getD dim 0 = 0 := validIx_getD_singleton hix h1
  apply List.ext_getElem
  · simp [hl]
  · intro d hd1 hd2
    rw [List.getElem_zipWith, List.getElem_set, List.getElem_set]
    by_cases hdd : dim = d
    · subst hdd
      rw [if_pos rfl, if_pos rfl]
      simp only
      rw [← List.getD_eq_getElem ix 0 hd2, hix0]
      omega
    · rw [if_neg hdd, if_neg hdd, List.getElem_map, List.getElem_set, if_neg hdd]
      simp

theorem zip_add_axis {s ix : List Nat} {dim i n : Nat}
    (hix : validIx s ix = true) (hdim : dim < s.length) (h1 : s.getD dim 0 = 1) :
    List.zipWith (fun j r => j + r.1) ix
      (((s.set dim n).map fun d => (0, d)).set dim (i, i + 1)) = ix.set dim i := by
  have hl : ix.length = s.length := validIx_length hix
  have hix0 : ix.getD dim 0 = 0 := validIx_getD_singleton hix h1
  apply List.ext_getElem
  · simp [hl]
  · intro d hd1 hd2
    rw [List.getElem_zipWith, List.getElem_set]
    by_cases hdd : dim = d
    · subst hdd
      rw [if_pos rfl, List.getElem_set, if_pos rfl]
      simp only
      rw [← List.getD_eq_getElem ix 0 (by omega : dim < ix.length), hix0]
      omega
    · rw [if_neg hdd, List.getElem_set, if_neg hdd, List.getElem_map,
        List.getElem_set, if_neg hdd]
      simp

theorem slice_ranges_extents {s : List Nat} {dim i n : Nat}
    (hdim : dim < s.length) (h1 : s.getD dim 0 = 1) :
    ((((s.set dim n).map fun d => (0, d)).set dim (i, i + 1)).map
      fun r => r.2 - r.1) = s := by
  rw [List.map_set, List.map_map]
  have hcomp : ((fun r : Nat × Nat => r.2 - r.1) ∘ fun d : Nat => ((0 : Nat), d)) =
      id := by
    funext d
    simp
  rw [hcomp, List.map_id]
  have h2 : i + 1 - i = 1 := by omega
  rw [h2, List.set_set, ← h1]
  exact set_getD_eq_self s dim 0 hdim

theorem repeatFoldAux_get {t : Tensor} {dim n : Nat}
    (hdim : dim < t.shape.length) (h1 : t.shape.getD dim 0 = 1) :
    ∀ m, m ≤ n → ∀ i, i < m → ∀ ix, validIx t.shape ix = true →
      (repeatFoldAux t dim n m).get (ix.set dim i) = t.get ix := by
  intro m
  induction m with
  | zero => omega
  | succ m ih =>
    intro hm i hi ix hix
    rw [repeatFoldAux_succ]
    simp only [int_slice_assign]
    rw [repeatFoldAux_shape]
    rw [ofFn_get _ (validIx_set hix hdim (by omega : i < n))]
    by_cases him : i = m
    · subst him
      rw [if_pos ((insideRanges_axis hix hdim).mpr rfl)]
      rw [zip_sub_axis hix hdim h1]
    · rw [if_neg (fun hc => him ((insideRanges_axis hix hdim).mp hc))]
      exact ih (by omega) i (by omega) ix hix

/-- C1: for every tensor and every dimension argument `dim`, the default
`int_max_dim` returns exactly `int_gather (D - 1) t (int_argmax t dim)` and
the default `int_min_dim` returns exactly
`int_gather (D - 1) t (int_argmin t dim)`: the index tensor is computed
along the requested dimension `dim`, but the gather is always performed
along the last dimension `D - 1`, regardless of `dim`. -/
theorem int_max_dim_gathers_last (t : Tensor) (dim : Nat) :
    int_max_dim t dim = int_gather (t.shape.length - 1) t (int_argmax t dim) ∧
    int_min_dim t dim = int_gather (t.shape.length - 1) t (int_argmin t dim) :=
  ⟨rfl, rfl⟩

/-- C2 counterexample: the claim that the contract's default along-dimension
mean equals the along-dimension sum fails — `int_mean_dim` has no default
body in the contract (it is a backend-required primitive), and under the
specification's own arithmetic-mean semantics the two differ already on the
2×3 tensor [[1,2,3],[4,5,6]] reduced along dimension 1 (mean [[2],[5]]
versus sum [[6],[15]]). -/
theorem int_mean_dim_spec_ne_sum_dim :
    int_mean_dim_spec ⟨[2, 3], [1, 2, 3, 4, 5, 6]⟩ 1 ≠
      int_sum_dim ⟨[2, 3], [1, 2, 3, 4, 5, 6]⟩ 1 := by
  decide

/-- C2 (amended): `int_mean_dim` has no default implementation in the
contract, so nothing forces it to equal `int_sum_dim`; a backend
implementing the spec's arithmetic-mean description produces, at every
valid position, the along-dimension sum divided by the reduced dimension's
pre-reduction extent, not the sum itself. -/
theorem int_mean_dim_spec_divides_sum (t : Tensor) (dim : Nat) (ix : List Nat)
    (hix : validIx (t.shape.set dim 1) ix = true) :
    (int_mean_dim_spec t dim).get ix =
      (int_sum_dim t dim).get ix / (t.shape.getD dim 0 : Int) := by
  rw [int_mean_dim_spec, int_sum_dim, ofFn_get _ hix, ofFn_get _ hix]

theorem int_mean_dim_spec_divides_sum_witness :
    validIx (([2, 3] : List Nat).set 1 1) [0, 0] = true ∧
      (int_mean_dim_spec ⟨[2, 3], [1, 2, 3, 4, 5, 6]⟩ 1).get [0, 0] =
        (int_sum_dim ⟨[2, 3], [1, 2, 3, 4, 5, 6]⟩ 1).get [0, 0] /
          (([2, 3] : List Nat).getD 1 0 : Int) :=
  ⟨by decide,
    int_mean_dim_spec_divides_sum ⟨[2, 3], [1, 2, 3, 4, 5, 6]⟩ 1 [0, 0] (by decide)⟩

/-- C3: for a tensor whose extent on `dim` is 1 and `times = n ≥ 1`, the
default `int_repeat` succeeds with a tensor whose shape equals the source
shape with the `dim` extent replaced by `n`, built by slice-assigning the
source into each of the `n` consecutive singleton slices of an empty output
of the expanded shape, and each of the `n` singleton slices along `dim` of
the result equals the source tensor. -/
theorem int_repeat_singleton_correct (t : Tensor) (dim n : Nat)
    (hv : Valid t) (hdim : dim < t.shape.length)
    (h1 : t.shape.getD dim 0 = 1) (hn : 1 ≤ n) :
    ∃ r, int_repeat t dim n = Except.ok r ∧
      r = repeatFoldAux t dim n n ∧
      r.shape = t.shape.set dim n ∧
      ∀ i, i < n →
        int_slice r ((r.shape.map fun d => (0, d)).set dim (i, i + 1)) = t := by
  refine ⟨repeatFoldAux t dim n n, ?_, rfl, repeatFoldAux_shape t dim n n, ?_⟩
  · simp only [int_repeat, int_shape]
    rw [if_neg (not_not_intro h1)]
  · intro i hi
    rw [repeatFoldAux_shape]
    have hsh : (((((t.shape.set dim n)).map fun d => (0, d)).set dim (i, i + 1)).map
        fun r => r.2 - r.1) = t.shape := slice_ranges_extents hdim h1
    have hshape : (int_slice (repeatFoldAux t dim n n)
        ((((t.shape.set dim n)).map fun d => (0, d)).set dim (i, i + 1))).shape =
          t.shape := hsh
    have hdata : (int_slice (repeatFoldAux t dim n n)
        ((((t.shape.set dim n)).map fun d => (0, d)).set dim (i, i + 1))).data =
          t.data := by
      simp only [int_slice, ofFn]
      rw [hsh]
      apply List.ext_getElem
      · rw [List.length_map, List.length_range, hv]
      · intro k hk1 hk2
        have hk : k < t.shape.prod := by
          rw [List.length_map, List.length_range] at hk1
          exact hk1
        rw [List.getElem_map, List.getElem_range]
        have hvix : validIx t.shape (unflatten t.shape k) = true :=
          validIx_unflatten hk
        rw [zip_add_axis hvix hdim h1]
        rw [repeatFoldAux_get hdim h1 n (le_refl n) i hi _ hvix]
        rw [Tensor.get, flatten_unflatten hk]
        exact List.getD_eq_getElem _ _ (by omega)
    have h2 : (⟨(int_slice (repeatFoldAux t dim n n)
        ((((t.shape.set dim n)).map fun d => (0, d)).set dim (i, i + 1))).shape,
          (int_slice (repeatFoldAux t dim n n)
        ((((t.shape.set dim n)).map fun d => (0, d)).set dim (i, i + 1))).data⟩ :
          Tensor) =
        int_slice (repeatFoldAux t dim n n)
          ((((t.shape.set dim n)).map fun d => (0, d)).set dim (i, i + 1)) := rfl
    rw [← h2, hshape, hdata]

theorem int_repeat_singleton_correct_witness :
    Valid ⟨[2, 1], [4, 9]⟩ ∧ 1 < ([2, 1] : List Nat).length ∧
      ([2, 1] : List Nat).getD 1 0 = 1 ∧ 1 ≤ 3 ∧
      (∃ r, int_repeat ⟨[2, 1], [4, 9]⟩ 1 3 = Except.ok r ∧
        r = repeatFoldAux ⟨[2, 1], [4, 9]⟩ 1 3 3 ∧
        r.shape = ([2, 1] : List Nat).set 1 3 ∧
        ∀ i, i < 3 →
          int_slice r ((r.shape.map fun d => (0, d)).set 1 (i, i + 1)) =
            ⟨[2, 1], [4, 9]⟩) :=
  ⟨rfl, by decide, by decide, by decide,
    int_repeat_singleton_correct ⟨[2, 1], [4, 9]⟩ 1 3 rfl (by decide)
      (by decide) (by decide)⟩

/-- C4: the default `int_repeat` on a dimension whose extent is not 1 fails
immediately with the descriptive invalid-argument condition ("Can only
repeat dimension with dim=1"), producing no result tensor. -/
theorem int_repeat_nonsingleton_errors (t : Tensor) (dim times : Nat)
    (hdim : dim < t.shape.length) (h : t.shape.getD dim 0 ≠ 1) :
    int_repeat t dim times =
      Except.error "Can only repeat dimension with dim=1" := by
  simp only [int_repeat, int_shape]
  rw [if_pos h]

theorem int_repeat_nonsingleton_errors_witness :
    0 < ([2] : List Nat).length ∧ ([2] : List Nat).getD 0 0 ≠ 1 ∧
      int_repeat ⟨[2], [4, 9]⟩ 0 3 =
        Except.error "Can only repeat dimension with dim=1" :=
  ⟨by decide, by decide,
    int_repeat_nonsingleton_errors ⟨[2], [4, 9]⟩ 0 3 (by decide) (by decide)⟩

/-- C8: double negation is the identity: the default `int_neg` multiplies
elementwise by the scalar −1 (the integer element image of the float
literal −1.0), and applying it twice restores the tensor. -/
theorem int_neg_involutive (t : Tensor) : int_neg (int_neg t) = t := by
  cases t with
  | mk s d =>
    simp only [int_neg, int_mul_scalar, List.map_map]
    have h : ((fun x : Int => x * -1) ∘ fun x : Int => x * -1) = id := by
      funext x
      simp
    rw [h, List.map_id]

/-- C9: the default `int_to_data` applies the backend's `int_into_data`
materialization primitive (abstracted as an arbitrary function) to a clone
of the tensor; the clone is a value-identical copy, so the original tensor
value is untouched and `int_to_data` agrees exactly (shape and values) with
`int_into_data` on the same tensor. -/
theorem int_to_data_eq_into_data {α : Type} (intoData : Tensor → α) (t : Tensor) :
    int_to_data intoData t = intoData t.clone ∧ t.clone = t :=
  ⟨rfl, rfl⟩

theorem rangeStepCount_lt_iff (a b : Int) (step : Nat) (h : 1 ≤ step) (k : Nat) :
    k < rangeStepCount a b step ↔ a + (k : Int) * (step : Int) < b := by
  rw [rangeStepCount, Nat.lt_iff_add_one_le, Nat.le_div_iff_mul_le h]
  have hp : (k + 1) * step = k * step + step := by ring
  rw [hp]
  have hcast : ((k * step : Nat) : Int) = (k : Int) * (step : Int) := by
    push_cast
    ring
  rw [← hcast]
  generalize (k * step : Nat) = p
  omega

theorem rangeStepList_getElem (a b : Int) (step : Nat) (h : 1 ≤ step) (k : Nat) :
    (rangeStepList a b step)[k]? =
      if a + (k : Int) * (step : Int) < b then some (a + (k : Int) * (step : Int))
      else none := by
  rw [rangeStepList]
  by_cases hk : k < rangeStepCount a b step
  · have hk2 : k < ((List.range (rangeStepCount a b step)).map
        fun k : Nat => a + (k : Int) * (step : Int)).length := by
      rw [List.length_map, List.length_range]
      exact hk
    rw [List.getElem?_eq_getElem hk2, List.getElem_map, List.getElem_range,
      if_pos ((rangeStepCount_lt_iff a b step h k).mp hk)]
  · rw [List.getElem?_eq_none
      (by rw [List.length_map, List.length_range]; exact Nat.le_of_not_lt hk),
      if_neg (fun hc => hk ((rangeStepCount_lt_iff a b step h k).mpr hc))]

/-- C6: for every half-open range `a..b` and `step ≥ 1`, the default
`int_arange_step` returns a rank-1 tensor holding exactly the values
`a, a + step, a + 2·step, ...` below `b` (position `k` holds `a + k·step`
precisely when that value is below `b`); an empty range yields a zero-length
tensor rather than an error; `int_arange_step(0..10, 3)` yields
`[0, 3, 6, 9]`; and the default `int_arange` equals `int_arange_step` with
step 1. -/
theorem int_arange_step_correct (a b : Int) (step : Nat) (h : 1 ≤ step) :
    (int_arange_step a b step).shape = [(int_arange_step a b step).data.length] ∧
    (∀ k : Nat, (int_arange_step a b step).data[k]? =
      if a + (k : Int) * (step : Int) < b then some (a + (k : Int) * (step : Int))
      else none) ∧
    (b ≤ a → (int_arange_step a b step).data = []) ∧
    int_arange a b = int_arange_step a b 1 ∧
    int_arange_step 0 10 3 = ⟨[4], [0, 3, 6, 9]⟩ := by
  refine ⟨rfl, fun k => rangeStepList_getElem a b step h k, ?_, rfl, by decide⟩
  intro hba
  have hc : rangeStepCount a b step = 0 := by
    rw [rangeStepCount]
    have h1 : (b - a).toNat = 0 := by omega
    rw [h1]
    exact Nat.div_eq_of_lt (by omega)
  simp [int_arange_step, rangeStepList, hc]

theorem int_arange_step_correct_witness :
    1 ≤ 3 ∧ int_arange_step 0 10 3 = ⟨[4], [0, 3, 6, 9]⟩ :=
  ⟨by decide, (int_arange_step_correct 0 10 3 (by decide)).2.2.2.2⟩

theorem int_clamp_max_data (t : Tensor) (mx : Int) :
    (int_clamp_max t mx).data = t.data.map fun x => if mx < x then mx else x := by
  simp only [int_clamp_max, int_mask_fill, int_greater_elem]
  rw [zipWith_map_same]
  apply List.map_congr_left
  intro x _
  by_cases hx : mx < x <;> simp [hx]

theorem int_clamp_min_data (t : Tensor) (mn : Int) :
    (int_clamp_min t mn).data = t.data.map fun x => if x < mn then mn else x := by
  simp only [int_clamp_min, int_mask_fill, int_lower_elem]
  rw [zipWith_map_same]
  apply List.map_congr_left
  intro x _
  by_cases hx : x < mn <;> simp [hx]

theorem int_clamp_data (t : Tensor) (mn mx : Int) :
    (int_clamp t mn mx).data = t.data.map fun x =>
      if (if mx < x then mx else x) < mn then mn else if mx < x then mx else x := by
  rw [int_clamp, int_clamp_min_data, int_clamp_max_data, List.map_map]
  rfl

/-- C5: for `min ≤ max`, every element of the default `int_clamp t min max`
lies in the closed interval `[min, max]`, every element of `t` already
inside `[min, max]` is unchanged at its position, and the two-sided clamp is
computed as max-clamp first, then min-clamp on the result. -/
theorem int_clamp_correct (t : Tensor) (mn mx : Int) (h : mn ≤ mx) :
    (∀ x ∈ (int_clamp t mn mx).data, mn ≤ x ∧ x ≤ mx) ∧
    (∀ k : Nat, k < t.data.length → mn ≤ t.data.getD k 0 → t.data.getD k 0 ≤ mx →
      (int_clamp t mn mx).data.getD k 0 = t.data.getD k 0) ∧
    (int_clamp t mn mx).shape = t.shape ∧
    int_clamp t mn mx = int_clamp_min (int_clamp_max t mx) mn := by
  refine ⟨?_, ?_, rfl, rfl⟩
  · intro x hx
    rw [int_clamp_data] at hx
    obtain ⟨y, -, rfl⟩ := List.mem_map.mp hx
    constructor
    · split <;> omega
    · split
      · omega
      · split <;> omega
  · intro k hk hmn hmx
    rw [List.getD_eq_getElem _ _ hk] at hmn hmx ⊢
    rw [int_clamp_data, List.getD_eq_getElem _ _ (by rw [List.length_map]; exact hk),
      List.getElem_map]
    split_ifs <;> omega

theorem int_clamp_correct_witness :
    (0 : Int) ≤ 5 ∧
      ∀ x ∈ (int_clamp ⟨[4], [-5, 2, 7, 100]⟩ 0 5).data, (0 : Int) ≤ x ∧ x ≤ 5 :=
  ⟨by decide, (int_clamp_correct ⟨[4], [-5, 2, 7, 100]⟩ 0 5 (by decide)).1⟩

theorem ofFn_one (f : List Nat → Int) : ofFn [1] f = ⟨[1], [f [0]]⟩ := rfl

theorem int_max_dim_rank1 (N : Nat) (d : List Int) :
    int_max_dim ⟨[N], d⟩ 0 =
      ⟨[1], [d.getD (bestIdx (fun j => d.getD j 0) N) 0]⟩ := by
  have hfun : (fun j => (⟨[N], d⟩ : Tensor).get [j]) = fun j => d.getD j 0 := by
    funext j
    simp [Tensor.get, flatten]
  have h1 : int_argmax ⟨[N], d⟩ 0 =
      ⟨[1], [Int.ofNat (bestIdx (fun j => (⟨[N], d⟩ : Tensor).get [j]) N)]⟩ :=
    ofFn_one _
  have h2 : int_max_dim ⟨[N], d⟩ 0 =
      int_gather 0 ⟨[N], d⟩ (int_argmax ⟨[N], d⟩ 0) := rfl
  rw [h2, h1, hfun]
  have h3 : int_gather 0 ⟨[N], d⟩
      ⟨[1], [Int.ofNat (bestIdx (fun j => d.getD j 0) N)]⟩ =
      ⟨[1], [(⟨[N], d⟩ : Tensor).get
        [(Int.ofNat (bestIdx (fun j => d.getD j 0) N)).toNat]]⟩ := ofFn_one _
  rw [h3]
  congr 1
  simp [Tensor.get, flatten]

/-- C7: for every non-empty tensor, the default `int_max` is a
single-element rank-1 tensor whose value equals the largest element, and it
is computed by reshaping to rank 1 (length the total element count) and
delegating to `int_max_dim` on dimension 0; symmetrically `int_min`
delegates to `int_min_dim` on dimension 0. -/
theorem int_max_correct (t : Tensor) (hv : Valid t) (hne : 0 < t.shape.prod) :
    (int_max t).shape = [1] ∧
    (∃ m, (int_max t).data = [m] ∧ m ∈ t.data ∧ ∀ x ∈ t.data, x ≤ m) ∧
    int_max t = int_max_dim (int_reshape t [t.shape.prod]) 0 ∧
    int_min t = int_min_dim (int_reshape t [t.shape.prod]) 0 := by
  have hmax : int_max t = int_max_dim ⟨[t.shape.prod], t.data⟩ 0 := rfl
  rw [Valid] at hv
  refine ⟨?_, ?_, rfl, rfl⟩
  · rw [hmax, int_max_dim_rank1]
  · rw [hmax, int_max_dim_rank1]
    have hblt : bestIdx (fun j => t.data.getD j 0) t.shape.prod < t.shape.prod :=
      bestIdx_lt _ _ hne
    refine ⟨t.data.getD (bestIdx (fun j => t.data.getD j 0) t.shape.prod) 0,
      rfl, ?_, ?_⟩
    · rw [List.getD_eq_getElem _ _ (by omega)]
      exact List.getElem_mem _
    · intro x hx
      obtain ⟨j, hj, rfl⟩ := List.mem_iff_getElem.mp hx
      rw [← List.getD_eq_getElem t.data 0 hj]
      exact bestIdx_le (fun j => t.data.getD j 0) t.shape.prod j (by omega)

theorem int_max_correct_witness :
    Valid ⟨[2, 2], [3, 7, 2, 5]⟩ ∧ 0 < ([2, 2] : List Nat).prod ∧
      (∃ m, (int_max ⟨[2, 2], [3, 7, 2, 5]⟩).data = [m] ∧
        m ∈ ([3, 7, 2, 5] : List Int) ∧ ∀ x ∈ ([3, 7, 2, 5] : List Int), x ≤ m) :=
  ⟨rfl, by decide, (int_max_correct ⟨[2, 2], [3, 7, 2, 5]⟩ rfl (by decide)).2.1⟩

end Burn
